import Mathlib

/-!
Verification of pkg/secret/secret.go from the spark-on-k8s-operator
repository: helper routines that attach secret volumes to pods, mount
them into containers, scan object annotations for secret references,
and wire the GOOGLE_APPLICATION_CREDENTIALS environment variable.

Shallow embedding conventions:
  * Kubernetes API structs (v1.Pod, v1.Container, v1.Volume,
    v1.VolumeMount, v1.EnvVar, ...) become Lean structures holding the
    fields this module reads or writes, plus representative unrelated
    fields (Name, Image, ObjectMeta) used to state frame conditions.
  * Go maps (map[string]string) become association lists
    List (String × String); a list models a map when its keys are
    Nodup.  Go's unspecified map iteration order is captured by
    quantifying theorems over every list (i.e. every enumeration
    order) of the entries.
  * Go functions that mutate through a pointer become functions
    returning the updated value (explicit state passing).
  * Go's strings.HasPrefix / strings.TrimPrefix are embedded on the
    character-list model of String.
-/

namespace SparkSecret

/-- Constant from secret.go: the environment variable used by the
Application Default Credentials mechanism. -/
def GoogleApplicationCredentialsEnvVar : String := "GOOGLE_APPLICATION_CREDENTIALS"

/-- Constant from secret.go: the default name of the service account
JSON key file inside the secret volume. -/
def ServiceAccountJSONKeyFileName : String := "key.json"

/-- Constant from secret.go: the name of the GCP service account secret
volume. -/
def ServiceAccountSecretVolumeName : String := "gcp-service-account-secret-volume"

/-- Modelled from the spec: secret.go references
config.GCPServiceAccountSecretAnnotationPrefix from pkg/config, which is
not among the supplied sources.  Per the spec it is a fixed prefix
string identifying the single GCP-style service-account secret
annotation; the concrete value is the repository's conventional one. -/
def GCPServiceAccountSecretAnnotationPfx : String :=
  "gcp-service-account.secret.spark-operator.k8s.io/"

/-- Modelled from the spec: secret.go references
config.GeneralSecretsAnnotationPrefix from pkg/config, which is not
among the supplied sources.  Per the spec it is a fixed prefix string
identifying zero-or-more general secret annotations. -/
def GeneralSecretsAnnotationPfx : String :=
  "secret.spark-operator.k8s.io/"

/-- Embedding of Go strings.HasPrefix on the character-list model. -/
def hasPrefixStr (s p : String) : Bool :=
  p.data.isPrefixOf s.data

/-- Embedding of Go strings.TrimPrefix: strips p from the front of s
when s has that prefix, otherwise returns s unchanged. -/
def trimPrefixStr (s p : String) : String :=
  if hasPrefixStr s p then String.mk (s.data.drop p.data.length) else s

/-- Embedding of v1.SecretVolumeSource (the field this module sets). -/
structure SecretVolumeSource where
  SecretName : String
deriving DecidableEq, Repr

/-- Embedding of v1.VolumeSource (the field this module sets). -/
structure VolumeSource where
  Secret : Option SecretVolumeSource
deriving DecidableEq, Repr

/-- Embedding of v1.Volume. -/
structure Volume where
  Name : String
  VolumeSource : VolumeSource
deriving DecidableEq, Repr

/-- Embedding of v1.VolumeMount (the fields this module sets). -/
structure VolumeMount where
  Name : String
  ReadOnly : Bool
  MountPath : String
deriving DecidableEq, Repr

/-- Embedding of v1.EnvVar (the fields this module sets). -/
structure EnvVar where
  Name : String
  Value : String
deriving DecidableEq, Repr

/-- Embedding of v1.Container: the two sequences this module appends to
plus representative unrelated fields for frame conditions. -/
structure Container where
  Name : String
  Image : String
  VolumeMounts : List VolumeMount
  Env : List EnvVar
deriving DecidableEq, Repr

/-- Embedding of v1.ObjectMeta (a representative field). -/
structure ObjectMeta where
  Name : String
deriving DecidableEq, Repr

/-- Embedding of v1.PodSpec: the volume sequence this module appends to
plus the container sequence as an unrelated field. -/
structure PodSpec where
  Volumes : List Volume
  Containers : List Container
deriving DecidableEq, Repr

/-- Embedding of v1.Pod. -/
structure Pod where
  ObjectMeta : ObjectMeta
  Spec : PodSpec
deriving DecidableEq, Repr

/-- Embedding of AddSecretVolumeToPod (secret.go): appends one
secret-backed Volume to the pod's volume sequence. -/
def AddSecretVolumeToPod (secretVolumeName : String) (secretName : String)
    (pod : Pod) : Pod :=
  let volume : Volume :=
    { Name := secretVolumeName
      VolumeSource := { Secret := some { SecretName := secretName } } }
  { pod with Spec := { pod.Spec with Volumes := pod.Spec.Volumes ++ [volume] } }

/-- Embedding of MountSecretToContainer (secret.go): appends one
read-only VolumeMount to the container's mount sequence. -/
def MountSecretToContainer (volumeName : String) (mountPath : String)
    (container : Container) : Container :=
  let volumeMount : VolumeMount :=
    { Name := volumeName, ReadOnly := true, MountPath := mountPath }
  { container with VolumeMounts := container.VolumeMounts ++ [volumeMount] }

/-- Embedding of FindGCPServiceAccountSecret (secret.go): iterates the
annotation entries in the order given by the list (one enumeration
order of the Go map) and returns name, path and a found flag for the
first key bearing the GCP service-account annotation prefix.  The Go
body reads the value via a map lookup of the current key, which on a
map representation (Nodup keys) is the entry's own value. -/
def FindGCPServiceAccountSecret : List (String × String) → String × String × Bool
  | [] => ("", "", false)
  | (k, v) :: rest =>
    if hasPrefixStr k GCPServiceAccountSecretAnnotationPfx then
      (trimPrefixStr k GCPServiceAccountSecretAnnotationPfx, v, true)
    else
      FindGCPServiceAccountSecret rest

/-- Go map insertion (m[k] = v) on the association-list model:
overwrites the entry with key k when present, otherwise appends. -/
def mapInsert (k : String) (v : String) :
    List (String × String) → List (String × String)
  | [] => [(k, v)]
  | (k', v') :: rest =>
    if k' = k then (k, v) :: rest else (k', v') :: mapInsert k v rest

/-- Go map lookup (m[k]) on the association-list model. -/
def mapLookup (k : String) : List (String × String) → Option String
  | [] => none
  | (k', v) :: rest => if k' = k then some v else mapLookup k rest

/-- Loop body of FindGeneralSecrets: folds the remaining annotation
entries into the secrets map built so far. -/
def FindGeneralSecretsAux :
    List (String × String) → List (String × String) → List (String × String)
  | [], secrets => secrets
  | (k, v) :: rest, secrets =>
    if hasPrefixStr k GeneralSecretsAnnotationPfx then
      FindGeneralSecretsAux rest
        (mapInsert (trimPrefixStr k GeneralSecretsAnnotationPfx) v secrets)
    else
      FindGeneralSecretsAux rest secrets

/-- Embedding of FindGeneralSecrets (secret.go): starts from an empty
map and inserts suffix-to-value for every key bearing the general
secrets annotation prefix, in the order given by the list. -/
def FindGeneralSecrets (anns : List (String × String)) : List (String × String) :=
  FindGeneralSecretsAux anns []

/-- Embedding of MountServiceAccountSecretToContainer (secret.go):
mounts the service account secret volume, then appends the
GOOGLE_APPLICATION_CREDENTIALS environment variable pointing at the
JSON key file inside the mount (fmt.Sprintf with pattern %s/%s). -/
def MountServiceAccountSecretToContainer (mountPath : String)
    (container : Container) : Container :=
  let c1 := MountSecretToContainer ServiceAccountSecretVolumeName mountPath container
  let jsonKeyFilePath := mountPath ++ "/" ++ ServiceAccountJSONKeyFileName
  let appCredentialEnvVar : EnvVar :=
    { Name := GoogleApplicationCredentialsEnvVar, Value := jsonKeyFilePath }
  { c1 with Env := c1.Env ++ [appCredentialEnvVar] }

/-- A container with empty mount and env sequences, for the concrete
test vectors of the spec. -/
def emptyContainer : Container :=
  { Name := "", Image := "", VolumeMounts := [], Env := [] }

/-- A pod with an empty volume sequence, for the concrete test vectors
of the spec. -/
def emptyPod : Pod :=
  { ObjectMeta := { Name := "" }, Spec := { Volumes := [], Containers := [] } }

/-! ### String helper lemmas -/

/-- A string does have each of its own prefixes. -/
theorem hasPrefixStr_append (p s : String) : hasPrefixStr (p ++ s) p = true := by
  simp [hasPrefixStr, String.data_append, List.isPrefixOf_iff_prefix,
    List.prefix_append]

/-- Stripping a prefix just appended recovers the suffix. -/
theorem trimPrefixStr_append (p s : String) : trimPrefixStr (p ++ s) p = s := by
  unfold trimPrefixStr
  rw [hasPrefixStr_append]
  simp only [if_pos]
  apply String.ext
  simp [String.data_append, List.drop_left]

/-- Any string with a given prefix is that prefix followed by the
stripped remainder. -/
theorem eq_append_trimPrefixStr {k p : String} (h : hasPrefixStr k p = true) :
    k = p ++ trimPrefixStr k p := by
  unfold hasPrefixStr at h
  rw [List.isPrefixOf_iff_prefix] at h
  obtain ⟨t, ht⟩ := h
  apply String.ext
  unfold trimPrefixStr
  rw [if_pos]
  · simp [String.data_append, ← ht, List.drop_left]
  · unfold hasPrefixStr
    rw [List.isPrefixOf_iff_prefix]
    exact ⟨t, ht⟩

/-- Appending on the left is injective for strings. -/
theorem string_append_left_cancel {p s t : String} (h : p ++ s = p ++ t) :
    s = t := by
  apply String.ext
  have hd : (p ++ s).data = (p ++ t).data := congrArg String.data h
  rw [String.data_append, String.data_append] at hd
  exact List.append_cancel_left hd

/-! ### Claim theorems: mutation operations -/

/-- C1: MountServiceAccountSecretToContainer appends exactly one
read-only VolumeMount named with the fixed service-account volume name
at the given base path, and exactly one environment variable named
GOOGLE_APPLICATION_CREDENTIALS valued base path, "/", then "key.json";
on an empty container with base path "/etc/gcp" this yields one such
mount at "/etc/gcp" and one env var valued "/etc/gcp/key.json". -/
theorem MountServiceAccountSecretToContainer_spec :
    (∀ (mountPath : String) (c : Container),
      MountServiceAccountSecretToContainer mountPath c =
        { c with
            VolumeMounts := c.VolumeMounts ++
              [{ Name := ServiceAccountSecretVolumeName, ReadOnly := true,
                 MountPath := mountPath }],
            Env := c.Env ++
              [{ Name := GoogleApplicationCredentialsEnvVar,
                 Value := mountPath ++ "/" ++ ServiceAccountJSONKeyFileName }] }) ∧
    (MountServiceAccountSecretToContainer "/etc/gcp" emptyContainer).VolumeMounts =
      [{ Name := "gcp-service-account-secret-volume", ReadOnly := true,
         MountPath := "/etc/gcp" }] ∧
    (MountServiceAccountSecretToContainer "/etc/gcp" emptyContainer).Env =
      [{ Name := "GOOGLE_APPLICATION_CREDENTIALS", Value := "/etc/gcp/key.json" }] :=
  ⟨fun _ _ => rfl, by decide, by decide⟩

/-- C4: AddSecretVolumeToPod appends exactly one Volume with the given
name and secret reference to the end of the pod's volume sequence; two
successive attachments on an empty pod yield the two volumes in call
order. -/
theorem AddSecretVolumeToPod_spec :
    (∀ (vn sn : String) (pod : Pod),
      AddSecretVolumeToPod vn sn pod =
        { pod with Spec := { pod.Spec with Volumes := pod.Spec.Volumes ++
            [{ Name := vn,
               VolumeSource := { Secret := some { SecretName := sn } } }] } }) ∧
    AddSecretVolumeToPod "v2" "s2" (AddSecretVolumeToPod "v1" "s1" emptyPod) =
      { ObjectMeta := { Name := "" }
        Spec :=
          { Volumes :=
              [{ Name := "v1", VolumeSource := { Secret := some { SecretName := "s1" } } },
               { Name := "v2", VolumeSource := { Secret := some { SecretName := "s2" } } }]
            Containers := [] } } :=
  ⟨fun _ _ _ => rfl, by decide⟩

/-- C5: every VolumeMount this module creates is read-only: any mount
present after MountSecretToContainer or after
MountServiceAccountSecretToContainer either was already present or has
its ReadOnly flag set to true. -/
theorem mounts_readOnly_invariant :
    (∀ (vn mp : String) (c : Container) (m : VolumeMount),
        m ∈ (MountSecretToContainer vn mp c).VolumeMounts →
        m ∈ c.VolumeMounts ∨ m.ReadOnly = true) ∧
    (∀ (mp : String) (c : Container) (m : VolumeMount),
        m ∈ (MountServiceAccountSecretToContainer mp c).VolumeMounts →
        m ∈ c.VolumeMounts ∨ m.ReadOnly = true) := by
  constructor
  · intro vn mp c m hm
    rcases List.mem_append.mp hm with hold | hnew
    · exact Or.inl hold
    · right
      have : m = { Name := vn, ReadOnly := true, MountPath := mp } :=
        List.mem_singleton.mp hnew
      rw [this]
  · intro mp c m hm
    rcases List.mem_append.mp hm with hold | hnew
    · exact Or.inl hold
    · right
      have : m = { Name := ServiceAccountSecretVolumeName, ReadOnly := true,
                   MountPath := mp } :=
        List.mem_singleton.mp hnew
      rw [this]

/-- Witness for C5 at volume "v1", path "/etc/creds", the empty
container and the appended mount. -/
theorem mounts_readOnly_invariant_witness :
    (({ Name := "v1", ReadOnly := true, MountPath := "/etc/creds" } : VolumeMount) ∈
        (MountSecretToContainer "v1" "/etc/creds" emptyContainer).VolumeMounts) ∧
    (({ Name := "v1", ReadOnly := true, MountPath := "/etc/creds" } : VolumeMount) ∈
        emptyContainer.VolumeMounts ∨
      ({ Name := "v1", ReadOnly := true, MountPath := "/etc/creds" } : VolumeMount).ReadOnly
        = true) :=
  ⟨by decide,
   mounts_readOnly_invariant.1 "v1" "/etc/creds" emptyContainer
     { Name := "v1", ReadOnly := true, MountPath := "/etc/creds" } (by decide)⟩

/-- C8: each operation changes only the sequences it appends to:
AddSecretVolumeToPod leaves the pod's metadata and containers unchanged
and appends one volume after the untouched existing ones;
MountSecretToContainer changes only the mount sequence;
MountServiceAccountSecretToContainer changes only the mount and env
sequences, each by one appended entry. -/
theorem frame_conditions :
    (∀ (vn sn : String) (pod : Pod),
        (AddSecretVolumeToPod vn sn pod).ObjectMeta = pod.ObjectMeta ∧
        (AddSecretVolumeToPod vn sn pod).Spec.Containers = pod.Spec.Containers ∧
        (AddSecretVolumeToPod vn sn pod).Spec.Volumes =
          pod.Spec.Volumes ++
            [{ Name := vn, VolumeSource := { Secret := some { SecretName := sn } } }]) ∧
    (∀ (vn mp : String) (c : Container),
        (MountSecretToContainer vn mp c).Name = c.Name ∧
        (MountSecretToContainer vn mp c).Image = c.Image ∧
        (MountSecretToContainer vn mp c).Env = c.Env ∧
        (MountSecretToContainer vn mp c).VolumeMounts =
          c.VolumeMounts ++ [{ Name := vn, ReadOnly := true, MountPath := mp }]) ∧
    (∀ (mp : String) (c : Container),
        (MountServiceAccountSecretToContainer mp c).Name = c.Name ∧
        (MountServiceAccountSecretToContainer mp c).Image = c.Image ∧
        (MountServiceAccountSecretToContainer mp c).VolumeMounts =
          c.VolumeMounts ++
            [{ Name := ServiceAccountSecretVolumeName, ReadOnly := true,
               MountPath := mp }] ∧
        (MountServiceAccountSecretToContainer mp c).Env =
          c.Env ++
            [{ Name := GoogleApplicationCredentialsEnvVar,
               Value := mp ++ "/" ++ ServiceAccountJSONKeyFileName }]) :=
  ⟨fun _ _ _ => ⟨rfl, rfl, rfl⟩,
   fun _ _ _ => ⟨rfl, rfl, rfl, rfl⟩,
   fun _ _ => ⟨rfl, rfl, rfl, rfl⟩⟩

/-- C10: no path normalization: the env value is literally the base
path, then "/", then "key.json", for every base path; the empty base
path yields "/key.json" and base path "/etc/gcp/" yields the doubled
slash "/etc/gcp//key.json". -/
theorem no_path_normalization :
    (∀ (mp : String) (c : Container),
        (MountServiceAccountSecretToContainer mp c).Env =
          c.Env ++
            [{ Name := GoogleApplicationCredentialsEnvVar,
               Value := mp ++ "/" ++ ServiceAccountJSONKeyFileName }]) ∧
    (∀ c : Container,
        (MountServiceAccountSecretToContainer "" c).Env =
          c.Env ++
            [{ Name := GoogleApplicationCredentialsEnvVar, Value := "/key.json" }]) ∧
    (∀ c : Container,
        (MountServiceAccountSecretToContainer "/etc/gcp/" c).Env =
          c.Env ++
            [{ Name := GoogleApplicationCredentialsEnvVar,
               Value := "/etc/gcp//key.json" }]) := by
  refine ⟨fun _ _ => rfl, fun c => ?_, fun c => ?_⟩
  · have h : ("" : String) ++ "/" ++ ServiceAccountJSONKeyFileName = "/key.json" := by
      decide
    have h1 : (MountServiceAccountSecretToContainer "" c).Env =
        c.Env ++
          [{ Name := GoogleApplicationCredentialsEnvVar,
             Value := "" ++ "/" ++ ServiceAccountJSONKeyFileName }] := rfl
    rw [h1, h]
  · have h : ("/etc/gcp/" : String) ++ "/" ++ ServiceAccountJSONKeyFileName =
        "/etc/gcp//key.json" := by decide
    have h1 : (MountServiceAccountSecretToContainer "/etc/gcp/" c).Env =
        c.Env ++
          [{ Name := GoogleApplicationCredentialsEnvVar,
             Value := "/etc/gcp/" ++ "/" ++ ServiceAccountJSONKeyFileName }] := rfl
    rw [h1, h]

/-! ### Claim theorems: single-secret scanner -/

/-- C6: when no annotation key bears the GCP service-account prefix,
FindGCPServiceAccountSecret returns empty name, empty path and
found = false; the module signals not-found only through this flag (the
embedded operations are total functions with no error value in their
result types). -/
theorem FindGCPServiceAccountSecret_not_found {l : List (String × String)}
    (h : ∀ p ∈ l, hasPrefixStr p.1 GCPServiceAccountSecretAnnotationPfx = false) :
    FindGCPServiceAccountSecret l = ("", "", false) := by
  induction l with
  | nil => rfl
  | cons hd tl ih =>
    obtain ⟨k, v⟩ := hd
    have hk : hasPrefixStr k GCPServiceAccountSecretAnnotationPfx = false :=
      h (k, v) (List.mem_cons_self _ _)
    show (if hasPrefixStr k GCPServiceAccountSecretAnnotationPfx then _ else _) = _
    rw [hk]
    simp only [Bool.false_eq_true, if_false]
    exact ih fun p hp => h p (List.mem_cons_of_mem _ hp)

/-- Witness for C6 at a one-entry mapping whose key lacks the prefix. -/
theorem FindGCPServiceAccountSecret_not_found_witness :
    (∀ p ∈ [("foo", "/bar")],
        hasPrefixStr p.1 GCPServiceAccountSecretAnnotationPfx = false) ∧
    FindGCPServiceAccountSecret [("foo", "/bar")] = ("", "", false) :=
  ⟨by decide, FindGCPServiceAccountSecret_not_found (by decide)⟩

/-- C2: on a mapping whose only key bearing the GCP service-account
prefix is the prefix followed by s, mapped to v,
FindGCPServiceAccountSecret returns (s, v, true) in every enumeration
order of the entries. -/
theorem FindGCPServiceAccountSecret_unique {l : List (String × String)}
    {s v : String}
    (hnd : (l.map Prod.fst).Nodup)
    (hmem : (GCPServiceAccountSecretAnnotationPfx ++ s, v) ∈ l)
    (huniq : ∀ p ∈ l,
      hasPrefixStr p.1 GCPServiceAccountSecretAnnotationPfx = true →
      p.1 = GCPServiceAccountSecretAnnotationPfx ++ s) :
    FindGCPServiceAccountSecret l = (s, v, true) := by
  induction l with
  | nil => cases hmem
  | cons hd tl ih =>
    obtain ⟨k, w⟩ := hd
    rw [List.map_cons, List.nodup_cons] at hnd
    by_cases hk : hasPrefixStr k GCPServiceAccountSecretAnnotationPfx = true
    · have hks : k = GCPServiceAccountSecretAnnotationPfx ++ s :=
        huniq (k, w) (List.mem_cons_self _ _) hk
      have hw : w = v := by
        rcases List.mem_cons.mp hmem with heq | htl
        · exact ((Prod.ext_iff.mp heq).2).symm
        · exfalso
          apply hnd.1
          rw [hks]
          exact List.mem_map.mpr ⟨_, htl, rfl⟩
      show (if hasPrefixStr k GCPServiceAccountSecretAnnotationPfx then _ else _) = _
      rw [if_pos hk, hks, trimPrefixStr_append, hw]
    · have hmem' : (GCPServiceAccountSecretAnnotationPfx ++ s, v) ∈ tl := by
        rcases List.mem_cons.mp hmem with heq | htl
        · exfalso
          apply hk
          have : k = GCPServiceAccountSecretAnnotationPfx ++ s :=
            congrArg Prod.fst heq.symm
          rw [this]
          exact hasPrefixStr_append _ _
        · exact htl
      show (if hasPrefixStr k GCPServiceAccountSecretAnnotationPfx then _ else _) = _
      rw [if_neg hk]
      exact ih hnd.2 hmem' fun p hp => huniq p (List.mem_cons_of_mem _ hp)

/-- Witness for C2 at the one-entry mapping mapping prefix ++ "sa" to
"/mnt/sa". -/
theorem FindGCPServiceAccountSecret_unique_witness :
    (([(GCPServiceAccountSecretAnnotationPfx ++ "sa", "/mnt/sa")].map
        Prod.fst).Nodup) ∧
    ((GCPServiceAccountSecretAnnotationPfx ++ "sa", "/mnt/sa") ∈
      [(GCPServiceAccountSecretAnnotationPfx ++ "sa", "/mnt/sa")]) ∧
    (∀ p ∈ [(GCPServiceAccountSecretAnnotationPfx ++ "sa", "/mnt/sa")],
        hasPrefixStr p.1 GCPServiceAccountSecretAnnotationPfx = true →
        p.1 = GCPServiceAccountSecretAnnotationPfx ++ "sa") ∧
    FindGCPServiceAccountSecret
        [(GCPServiceAccountSecretAnnotationPfx ++ "sa", "/mnt/sa")] =
      ("sa", "/mnt/sa", true) :=
  ⟨by decide, by decide, by decide,
   FindGCPServiceAccountSecret_unique (by decide) (by decide) (by decide)⟩

/-- C7: when at least one key bears the GCP service-account prefix,
FindGCPServiceAccountSecret reports found = true and returns the
stripped suffix and mapped value of some key of the mapping that bears
the prefix. -/
theorem FindGCPServiceAccountSecret_found {l : List (String × String)}
    (h : ∃ p ∈ l, hasPrefixStr p.1 GCPServiceAccountSecretAnnotationPfx = true) :
    ∃ k v, (k, v) ∈ l ∧
      hasPrefixStr k GCPServiceAccountSecretAnnotationPfx = true ∧
      FindGCPServiceAccountSecret l =
        (trimPrefixStr k GCPServiceAccountSecretAnnotationPfx, v, true) := by
  induction l with
  | nil => obtain ⟨p, hp, _⟩ := h; cases hp
  | cons hd tl ih =>
    obtain ⟨k, w⟩ := hd
    by_cases hk : hasPrefixStr k GCPServiceAccountSecretAnnotationPfx = true
    · refine ⟨k, w, List.mem_cons_self _ _, hk, ?_⟩
      show (if hasPrefixStr k GCPServiceAccountSecretAnnotationPfx then _ else _) = _
      rw [if_pos hk]
    · have h' : ∃ p ∈ tl,
          hasPrefixStr p.1 GCPServiceAccountSecretAnnotationPfx = true := by
        obtain ⟨p, hp, hppre⟩ := h
        rcases List.mem_cons.mp hp with heq | htl
        · rw [heq] at hppre
          exact absurd hppre hk
        · exact ⟨p, htl, hppre⟩
      obtain ⟨k', v', hmem, hpre, heq⟩ := ih h'
      refine ⟨k', v', List.mem_cons_of_mem _ hmem, hpre, ?_⟩
      show (if hasPrefixStr k GCPServiceAccountSecretAnnotationPfx then _ else _) = _
      rw [if_neg hk]
      exact heq

/-- Witness for C7 at a two-entry mapping with one matching key. -/
theorem FindGCPServiceAccountSecret_found_witness :
    (∃ p ∈ [("other", "/x"),
            (GCPServiceAccountSecretAnnotationPfx ++ "sa", "/mnt/sa")],
        hasPrefixStr p.1 GCPServiceAccountSecretAnnotationPfx = true) ∧
    (∃ k v, (k, v) ∈ [("other", "/x"),
            (GCPServiceAccountSecretAnnotationPfx ++ "sa", "/mnt/sa")] ∧
      hasPrefixStr k GCPServiceAccountSecretAnnotationPfx = true ∧
      FindGCPServiceAccountSecret
          [("other", "/x"),
           (GCPServiceAccountSecretAnnotationPfx ++ "sa", "/mnt/sa")] =
        (trimPrefixStr k GCPServiceAccountSecretAnnotationPfx, v, true)) :=
  ⟨by decide, FindGCPServiceAccountSecret_found (by decide)⟩

/-! ### Multi-secret scanner: helper lemmas -/

/-- The entries FindGeneralSecrets is meant to produce: for every key
bearing the general-secrets prefix, the stripped suffix paired with the
annotation's value, in input order. -/
def generalSecretEntries (l : List (String × String)) : List (String × String) :=
  (l.filter fun p => hasPrefixStr p.1 GeneralSecretsAnnotationPfx).map
    fun p => (trimPrefixStr p.1 GeneralSecretsAnnotationPfx, p.2)

/-- Inserting a fresh key into a map appends the entry at the end. -/
theorem mapInsert_of_not_mem (k v : String) :
    ∀ m : List (String × String), k ∉ m.map Prod.fst →
      mapInsert k v m = m ++ [(k, v)] := by
  intro m
  induction m with
  | nil => intro _; rfl
  | cons hd tl ih =>
    intro h
    obtain ⟨k', v'⟩ := hd
    rw [List.map_cons] at h
    have hne : k' ≠ k := fun hEq => h (hEq ▸ List.mem_cons_self _ _)
    have htl : k ∉ tl.map Prod.fst := fun hm => h (List.mem_cons_of_mem _ hm)
    show (if k' = k then _ else _) = _
    rw [if_neg hne, ih htl]
    rfl

/-- Unfolding of the FindGeneralSecrets loop when no key collision can
occur: the accumulator is extended at the end by the stripped matching
entries, in order. -/
theorem FindGeneralSecretsAux_eq :
    ∀ l acc : List (String × String),
      (acc.map Prod.fst ++ (generalSecretEntries l).map Prod.fst).Nodup →
      FindGeneralSecretsAux l acc = acc ++ generalSecretEntries l := by
  intro l
  induction l with
  | nil =>
    intro acc _
    simp [FindGeneralSecretsAux, generalSecretEntries]
  | cons hd tl ih =>
    intro acc h
    obtain ⟨k, v⟩ := hd
    by_cases hk : hasPrefixStr k GeneralSecretsAnnotationPfx = true
    · have hent : generalSecretEntries ((k, v) :: tl) =
          (trimPrefixStr k GeneralSecretsAnnotationPfx, v) ::
            generalSecretEntries tl := by
        simp [generalSecretEntries, List.filter_cons, hk]
      have hstep : FindGeneralSecretsAux ((k, v) :: tl) acc =
          FindGeneralSecretsAux tl
            (mapInsert (trimPrefixStr k GeneralSecretsAnnotationPfx) v acc) := by
        show (if hasPrefixStr k GeneralSecretsAnnotationPfx then _ else _) = _
        rw [if_pos hk]
      rw [hstep, hent]
      rw [hent, List.map_cons] at h
      have hfresh :
          trimPrefixStr k GeneralSecretsAnnotationPfx ∉ acc.map Prod.fst := by
        rcases List.nodup_append.mp h with ⟨_, _, hdisj⟩
        intro hmem
        exact hdisj hmem (List.mem_cons_self _ _)
      rw [mapInsert_of_not_mem _ _ acc hfresh]
      have happ : acc ++ (trimPrefixStr k GeneralSecretsAnnotationPfx, v) ::
            generalSecretEntries tl =
          (acc ++ [(trimPrefixStr k GeneralSecretsAnnotationPfx, v)]) ++
            generalSecretEntries tl := by
        rw [List.append_assoc, List.singleton_append]
      rw [happ]
      apply ih
      rw [List.map_append, List.append_assoc]
      simpa using h
    · have hent : generalSecretEntries ((k, v) :: tl) = generalSecretEntries tl := by
        simp [generalSecretEntries, List.filter_cons, hk]
      have hstep : FindGeneralSecretsAux ((k, v) :: tl) acc =
          FindGeneralSecretsAux tl acc := by
        show (if hasPrefixStr k GeneralSecretsAnnotationPfx then _ else _) = _
        rw [if_neg hk]
      rw [hstep, hent]
      rw [hent] at h
      exact ih acc h

/-- Distinct annotation keys yield distinct result keys: stripping the
common prefix is injective on keys that bear it. -/
theorem generalSecretEntries_keys_nodup {l : List (String × String)}
    (h : (l.map Prod.fst).Nodup) :
    ((generalSecretEntries l).map Prod.fst).Nodup := by
  have hl : l.Nodup := List.Nodup.of_map Prod.fst h
  have hfil : (l.filter fun p => hasPrefixStr p.1 GeneralSecretsAnnotationPfx).Nodup :=
    hl.filter _
  have hmap : (generalSecretEntries l).map Prod.fst =
      (l.filter fun p => hasPrefixStr p.1 GeneralSecretsAnnotationPfx).map
        (fun p => trimPrefixStr p.1 GeneralSecretsAnnotationPfx) := by
    simp [generalSecretEntries, List.map_map, Function.comp]
  rw [hmap]
  apply List.Nodup.map_on _ hfil
  intro x hx y hy hxy
  have hxpre : hasPrefixStr x.1 GeneralSecretsAnnotationPfx = true :=
    (List.mem_filter.mp hx).2
  have hypre : hasPrefixStr y.1 GeneralSecretsAnnotationPfx = true :=
    (List.mem_filter.mp hy).2
  have hx1 : x.1 = y.1 := by
    calc x.1 = GeneralSecretsAnnotationPfx ++
          trimPrefixStr x.1 GeneralSecretsAnnotationPfx :=
            eq_append_trimPrefixStr hxpre
      _ = GeneralSecretsAnnotationPfx ++
          trimPrefixStr y.1 GeneralSecretsAnnotationPfx := by rw [hxy]
      _ = y.1 := (eq_append_trimPrefixStr hypre).symm
  exact List.inj_on_of_nodup_map h (List.mem_filter.mp hx).1
    (List.mem_filter.mp hy).1 hx1

/-- On a mapping with distinct keys, FindGeneralSecrets is exactly the
stripped matching entries in input order. -/
theorem FindGeneralSecrets_eq_entries {l : List (String × String)}
    (h : (l.map Prod.fst).Nodup) :
    FindGeneralSecrets l = generalSecretEntries l := by
  have := FindGeneralSecretsAux_eq l []
    (by simpa using generalSecretEntries_keys_nodup h)
  simpa [FindGeneralSecrets] using this

/-- Association-list lookup agrees with membership when keys are
distinct. -/
theorem mapLookup_eq_some_iff {m : List (String × String)}
    (h : (m.map Prod.fst).Nodup) (k v : String) :
    mapLookup k m = some v ↔ (k, v) ∈ m := by
  induction m with
  | nil => simp [mapLookup]
  | cons hd tl ih =>
    obtain ⟨k', v'⟩ := hd
    rw [List.map_cons, List.nodup_cons] at h
    show (if k' = k then some v' else mapLookup k tl) = some v ↔ _
    by_cases hkk : k' = k
    · rw [if_pos hkk]
      subst hkk
      constructor
      · intro hv
        rw [← Option.some.inj hv]
        exact List.mem_cons_self _ _
      · intro hmem
        rcases List.mem_cons.mp hmem with heq | htl
        · exact congrArg some ((Prod.ext_iff.mp heq).2).symm
        · exact absurd (List.mem_map.mpr ⟨_, htl, rfl⟩) h.1
    · rw [if_neg hkk, ih h.2]
      constructor
      · exact fun htl => List.mem_cons_of_mem _ htl
      · intro hmem
        rcases List.mem_cons.mp hmem with heq | htl
        · exact absurd ((Prod.ext_iff.mp heq).1).symm hkk
        · exact htl

/-- Membership in the stripped entries corresponds to membership of the
prefixed key in the input mapping. -/
theorem mem_generalSecretEntries {l : List (String × String)} (s v : String) :
    (s, v) ∈ generalSecretEntries l ↔
      (GeneralSecretsAnnotationPfx ++ s, v) ∈ l := by
  constructor
  · intro h
    obtain ⟨p, hp, hpe⟩ := List.mem_map.mp h
    have hpmem := (List.mem_filter.mp hp).1
    have hppre : hasPrefixStr p.1 GeneralSecretsAnnotationPfx = true :=
      (List.mem_filter.mp hp).2
    have h1 : trimPrefixStr p.1 GeneralSecretsAnnotationPfx = s :=
      (Prod.ext_iff.mp hpe).1
    have h2 : p.2 = v := (Prod.ext_iff.mp hpe).2
    have hkey : p.1 = GeneralSecretsAnnotationPfx ++ s := by
      rw [← h1]
      exact eq_append_trimPrefixStr hppre
    have hpeq : (GeneralSecretsAnnotationPfx ++ s, v) = p := by
      rw [← hkey, ← h2]
    rw [hpeq]
    exact hpmem
  · intro h
    apply List.mem_map.mpr
    refine ⟨(GeneralSecretsAnnotationPfx ++ s, v), ?_, ?_⟩
    · exact List.mem_filter.mpr ⟨h, hasPrefixStr_append _ _⟩
    · simp [trimPrefixStr_append]

/-! ### Claim theorems: multi-secret scanner -/

/-- C3: FindGeneralSecrets returns the mapping sending each matching
key's suffix to that key's value and nothing else: for every mapping
with distinct keys, in every enumeration order of its entries, looking
up s in the result yields v exactly when the input maps prefix ++ s to
v.  The right-hand side depends only on the set of entries, so the
result is order-independent. -/
theorem FindGeneralSecrets_lookup {l : List (String × String)}
    (h : (l.map Prod.fst).Nodup) (s v : String) :
    mapLookup s (FindGeneralSecrets l) = some v ↔
      (GeneralSecretsAnnotationPfx ++ s, v) ∈ l := by
  rw [FindGeneralSecrets_eq_entries h,
    mapLookup_eq_some_iff (generalSecretEntries_keys_nodup h),
    mem_generalSecretEntries]

/-- Witness for C3 at the two-entry mapping of the spec's test vector,
in both enumeration orders. -/
theorem FindGeneralSecrets_lookup_witness :
    (([(GeneralSecretsAnnotationPfx ++ "a", "/m1"),
       (GeneralSecretsAnnotationPfx ++ "b", "/m2")].map Prod.fst).Nodup) ∧
    (mapLookup "a" (FindGeneralSecrets
        [(GeneralSecretsAnnotationPfx ++ "a", "/m1"),
         (GeneralSecretsAnnotationPfx ++ "b", "/m2")]) = some "/m1" ↔
      (GeneralSecretsAnnotationPfx ++ "a", "/m1") ∈
        [(GeneralSecretsAnnotationPfx ++ "a", "/m1"),
         (GeneralSecretsAnnotationPfx ++ "b", "/m2")]) ∧
    (mapLookup "a" (FindGeneralSecrets
        [(GeneralSecretsAnnotationPfx ++ "b", "/m2"),
         (GeneralSecretsAnnotationPfx ++ "a", "/m1")]) = some "/m1" ↔
      (GeneralSecretsAnnotationPfx ++ "a", "/m1") ∈
        [(GeneralSecretsAnnotationPfx ++ "b", "/m2"),
         (GeneralSecretsAnnotationPfx ++ "a", "/m1")]) :=
  ⟨by decide, FindGeneralSecrets_lookup (by decide) "a" "/m1",
   FindGeneralSecrets_lookup (by decide) "a" "/m1"⟩

/-- C9: no last-write-wins collision occurs: on every mapping with
distinct keys the result of FindGeneralSecrets has distinct keys and
exactly one entry per key bearing the general-secrets prefix. -/
theorem FindGeneralSecrets_no_collision {l : List (String × String)}
    (h : (l.map Prod.fst).Nodup) :
    ((FindGeneralSecrets l).map Prod.fst).Nodup ∧
    (FindGeneralSecrets l).length =
      (l.filter fun p => hasPrefixStr p.1 GeneralSecretsAnnotationPfx).length := by
  rw [FindGeneralSecrets_eq_entries h]
  exact ⟨generalSecretEntries_keys_nodup h, by simp [generalSecretEntries]⟩

/-- Witness for C9 at a three-entry mapping with two matching keys. -/
theorem FindGeneralSecrets_no_collision_witness :
    (([(GeneralSecretsAnnotationPfx ++ "a", "/m1"), ("other", "/x"),
       (GeneralSecretsAnnotationPfx ++ "b", "/m2")].map Prod.fst).Nodup) ∧
    (((FindGeneralSecrets
        [(GeneralSecretsAnnotationPfx ++ "a", "/m1"), ("other", "/x"),
         (GeneralSecretsAnnotationPfx ++ "b", "/m2")]).map Prod.fst).Nodup ∧
      (FindGeneralSecrets
        [(GeneralSecretsAnnotationPfx ++ "a", "/m1"), ("other", "/x"),
         (GeneralSecretsAnnotationPfx ++ "b", "/m2")]).length =
      ([(GeneralSecretsAnnotationPfx ++ "a", "/m1"), ("other", "/x"),
        (GeneralSecretsAnnotationPfx ++ "b", "/m2")].filter
          fun p => hasPrefixStr p.1 GeneralSecretsAnnotationPfx).length) :=
  ⟨by decide, FindGeneralSecrets_no_collision (by decide)⟩

end SparkSecret
